import Mathlib

/-!
Verification of the ast-calc expression calculator core (tokenizer,
precedence-climbing parser, evaluator, layout metrics) against its
natural-language specification.

Modelling conventions:
* Rust `f64` values are modelled as `ℚ`.  The claims settled here depend
  only on exact small-value arithmetic, on the structure of the factorial
  branch and on parse trees, never on IEEE rounding, infinities or NaN;
  the spots where the `ℚ` model idealises IEEE behaviour (binary `+ - * /`,
  the transcendental functions, `u64 as f64`) are noted at the definition.
* The transcendental functions `sin cos tan exp ln` and float `powf` have
  no exact `ℚ` counterpart, so the evaluator is parametrised by a bundle
  `TransOps` of arbitrary functions standing for them.
* Rust `panic!`, `assert_eq!` and `.expect(..)` abort the process.  They
  are modelled as `Except.error` with a `PanicKind` tag so that theorems
  can talk about which abort fires; an `.error` result therefore means
  "the Rust code panics here", not "the Rust code returns an error value".
* The recursive parser and the tokenizer loop are given explicit fuel;
  the public wrappers supply fuel that provably suffices (every recursive
  call first consumes at least one token/character).
-/

deriving instance DecidableEq for Except

namespace AstCalc

/-- Tokens produced by the lexer (src/lex.rs, `enum Token`).  The payload
of `Number` is the parsed numeric value, `f64` modelled as `ℚ`. -/
inductive Token where
  | Plus
  | Minus
  | Multiply
  | Divide
  | Power
  | Factorial
  | Sin
  | Cos
  | Tan
  | Exp
  | Log
  | LParens
  | RParens
  | Number (n : ℚ)
deriving DecidableEq, Repr

/-- Binary operators (src/parse.rs, `enum BinOp`). -/
inductive BinOp where
  | Plus
  | Minus
  | Multiply
  | Divide
  | Power
deriving DecidableEq, Repr

/-- Unary operators (src/parse.rs, `enum UnOp`). -/
inductive UnOp where
  | Negative
  | Sin
  | Cos
  | Tan
  | Exp
  | Log
  | Factorial
deriving DecidableEq, Repr

/-- Expression trees (src/parse.rs, `enum Expr`).  `Eof` is the end
marker the spec calls `EndMarker`. -/
inductive Expr where
  | BinaryOp (op : BinOp) (e1 e2 : Expr)
  | UnaryOp (op : UnOp) (e : Expr)
  | Number (n : ℚ)
  | Eof
deriving DecidableEq, Repr

/-- Tags for the places where the Rust code aborts (panic / failed
assert) or where our explicit fuel runs out.  `.error tag` in a result
models "the Rust code panics at this spot". -/
inductive PanicKind where
  | badBinaryTok
  | badUnaryTok
  | notAPrefixOp
  | unmatchedParen
  | evalEof
  | factorialFrac
  | outOfFuel
deriving DecidableEq, Repr

/-- `impl From<Token> for BinOp` (src/parse.rs:29-40); the Rust `panic!`
on a non-operator token is modelled by `none`. -/
def binOpOfToken : Token → Option BinOp
  | .Plus => some .Plus
  | .Minus => some .Minus
  | .Multiply => some .Multiply
  | .Divide => some .Divide
  | .Power => some .Power
  | _ => none

/-- `impl From<Token> for UnOp` (src/parse.rs:69-82); the Rust `panic!`
on a non-operator token is modelled by `none`. -/
def unOpOfToken : Token → Option UnOp
  | .Minus => some .Negative
  | .Sin => some .Sin
  | .Cos => some .Cos
  | .Tan => some .Tan
  | .Exp => some .Exp
  | .Log => some .Log
  | .Factorial => some .Factorial
  | _ => none

/-- `fn infix_prec` (src/parse.rs:179-190): left/right binding powers of
the binary operators. -/
def binTokPrec : Token → Option (Nat × Nat)
  | .Plus => some (1, 2)
  | .Minus => some (1, 2)
  | .Multiply => some (3, 4)
  | .Divide => some (3, 4)
  | .Power => some (5, 6)
  | _ => none

/-- `fn prefix_prec` (src/parse.rs:192-202): right binding power of the
unary-operator tokens; the Rust `panic!` on any other token is modelled
by `none`. -/
def preTokPrec : Token → Option Nat
  | .Minus => some 8
  | .Sin => some 8
  | .Cos => some 8
  | .Tan => some 8
  | .Exp => some 8
  | .Log => some 8
  | _ => none

/-- `fn postfix_prec` (src/parse.rs:204-210): left binding power of the
postfix factorial token. -/
def postTokPrec : Token → Option Nat
  | .Factorial => some 9
  | _ => none

mutual

/-- `fn expr_prec` (src/parse.rs:213-269) up to its trailing loop: read
one leading token and build the initial left-hand side, then enter the
operator loop.  The token stream is a `List Token`; the explicit `fuel`
argument only makes the recursion structural (the public wrapper
`expr_prec` supplies enough fuel for any input, see `exprPrecFuel_mono`
and the concrete evaluations below). -/
def exprPrecFuel : Nat → List Token → Nat → Except PanicKind (Expr × List Token)
  | 0, _, _ => .error .outOfFuel
  | _ + 1, [], _ => .ok (.Eof, [])
  | fuel + 1, .Number n :: rest, minPrec => exprLoopFuel fuel (.Number n) rest minPrec
  | fuel + 1, .LParens :: rest, minPrec =>
    match exprPrecFuel fuel rest 0 with
    | .error e => .error e
    | .ok (lhs, rest1) =>
      match rest1 with
      | .RParens :: rest2 => exprLoopFuel fuel lhs rest2 minPrec
      | _ => .error .unmatchedParen
  | fuel + 1, t :: rest, minPrec =>
    match preTokPrec t with
    | none => .error .notAPrefixOp
    | some rPrec =>
      match exprPrecFuel fuel rest rPrec with
      | .error e => .error e
      | .ok (rhs, rest1) =>
        match unOpOfToken t with
        | none => .error .badUnaryTok
        | some u => exprLoopFuel fuel (.UnaryOp u rhs) rest1 minPrec

/-- The `loop` of `fn expr_prec` (src/parse.rs:236-266): repeatedly peek
the next token and extend `lhs` with a postfix factorial or an infix
operator whose left binding power is at least `minPrec`; otherwise stop,
leaving the peeked token in the remainder. -/
def exprLoopFuel : Nat → Expr → List Token → Nat → Except PanicKind (Expr × List Token)
  | 0, _, _, _ => .error .outOfFuel
  | _ + 1, lhs, [], _ => .ok (lhs, [])
  | fuel + 1, lhs, op :: rest, minPrec =>
    match postTokPrec op with
    | some lbp =>
      if lbp < minPrec then .ok (lhs, op :: rest)
      else
        match unOpOfToken op with
        | none => .error .badUnaryTok
        | some u => exprLoopFuel fuel (.UnaryOp u lhs) rest minPrec
    | none =>
      match binTokPrec op with
      | some (lbp, rbp) =>
        if lbp < minPrec then .ok (lhs, op :: rest)
        else
          match exprPrecFuel fuel rest rbp with
          | .error e => .error e
          | .ok (rhs, rest1) =>
            match binOpOfToken op with
            | none => .error .badBinaryTok
            | some b => exprLoopFuel fuel (.BinaryOp b lhs rhs) rest1 minPrec
      | none => .ok (lhs, op :: rest)

end

/-- The public core parse call `expr_prec(lexer, min_prec)`
(src/parse.rs:213): every recursive call of `exprPrecFuel`/`exprLoopFuel`
consumes at least one token before the fuel drops, so `length + 1` fuel
never runs out. -/
def expr_prec (toks : List Token) (minPrec : Nat) : Except PanicKind (Expr × List Token) :=
  exprPrecFuel (toks.length + 1) toks minPrec

/-- Expressions that do not contain the end marker anywhere: the parse
results that represent an actual complete expression. -/
def Expr.noEof : Expr → Bool
  | .BinaryOp _ e1 e2 => e1.noEof && e2.noEof
  | .UnaryOp _ e => e.noEof
  | .Number _ => true
  | .Eof => false

/-- Tokens on which the parser loop would continue consuming (a postfix
or infix operator); any other peeked token makes the loop stop and stay
unconsumed. -/
def continuesExpr (t : Token) : Bool :=
  (postTokPrec t).isSome || (binTokPrec t).isSome

/-- A token list that cannot re-activate a stopped parse when appended:
empty, or headed by a non-continuing token. -/
def stopsHead : List Token → Prop
  | [] => True
  | t :: _ => continuesExpr t = false

/-- Condition under which appending `suf` to the unconsumed input leaves
a parse result `(e, rem)` unchanged (up to appending `suf` to the
remainder): either the parse already stopped on a peeked token
(`rem ≠ []`, so the end of input was never observed), or it consumed
everything without ever reading past the end (`e` contains no end
marker) and `suf` starts with a non-continuing token. -/
def ExtOk (e : Expr) (rem suf : List Token) : Prop :=
  rem ≠ [] ∨ (Expr.noEof e = true ∧ stopsHead suf)

/-- The transcendental functions and float `powf` used by the evaluator
(`f64::sin`, `cos`, `tan`, `exp`, `ln`, `powf`) have no exact counterpart
on the `ℚ` model of `f64`, so the evaluator is parametrised by an
arbitrary bundle of functions standing for them.  No claim settled here
depends on their values. -/
structure TransOps where
  sin : ℚ → ℚ
  cos : ℚ → ℚ
  tan : ℚ → ℚ
  exp : ℚ → ℚ
  ln : ℚ → ℚ
  powf : ℚ → ℚ → ℚ

/-- A throwaway instantiation of `TransOps` used to state closed concrete
facts; the facts proved with it hold for every instantiation. -/
def noTrans : TransOps :=
  ⟨fun _ => 0, fun _ => 0, fun _ => 0, fun _ => 0, fun _ => 0, fun _ _ => 0⟩

/-- Truncation toward zero, `f64::trunc` on the `ℚ` model. -/
def ftrunc (q : ℚ) : ℤ := if 0 ≤ q then ⌊q⌋ else -⌊-q⌋

/-- `f64::fract`: `self - self.trunc()`. -/
def fract (q : ℚ) : ℚ := q - (ftrunc q : ℚ)

/-- The Rust cast `val as u64` on an `f64` (saturating since Rust 1.45):
truncate toward zero, clamp negatives to `0` and values beyond
`u64::MAX` to `u64::MAX`. -/
def f64ToU64 (q : ℚ) : ℕ :=
  if q < 0 then 0 else min (ftrunc q).toNat (2 ^ 64 - 1)

/-- `(1..=int_val).product::<u64>()` (src/parse.rs:166): the product of
`1, 2, …, n` accumulated with wrapping 64-bit unsigned multiplication
(release-profile overflow semantics, the "silent overflow" the spec
documents). -/
def u64RangeProd (n : ℕ) : ℕ :=
  (List.range' 1 n).foldl (fun acc k => acc * k % 2 ^ 64) 1

/-- `Expr::eval` (src/parse.rs:143-176).  `f64` arithmetic is modelled
exactly on `ℚ` (IEEE rounding, infinities and NaN are not modelled; in
particular `/` is exact rational division with `q / 0 = 0` rather than
IEEE `±inf`/NaN — no claim settled here touches that difference), the
final `as f64` of the factorial branch is modelled as the exact
coercion `ℕ → ℚ`, and the two `panic!` calls of the source (on `Eof`
and on a fractional factorial operand) are modelled as `.error` tags. -/
def Expr.eval (ops : TransOps) : Expr → Except PanicKind ℚ
  | .BinaryOp op e1 e2 =>
    match op with
    | .Plus => do .ok ((← Expr.eval ops e1) + (← Expr.eval ops e2))
    | .Minus => do .ok ((← Expr.eval ops e1) - (← Expr.eval ops e2))
    | .Multiply => do .ok ((← Expr.eval ops e1) * (← Expr.eval ops e2))
    | .Divide => do .ok ((← Expr.eval ops e1) / (← Expr.eval ops e2))
    | .Power => do .ok (ops.powf (← Expr.eval ops e1) (← Expr.eval ops e2))
  | .UnaryOp op e =>
    match op with
    | .Negative => do .ok (-(← Expr.eval ops e))
    | .Sin => do .ok (ops.sin (← Expr.eval ops e))
    | .Cos => do .ok (ops.cos (← Expr.eval ops e))
    | .Tan => do .ok (ops.tan (← Expr.eval ops e))
    | .Exp => do .ok (ops.exp (← Expr.eval ops e))
    | .Log => do .ok (ops.ln (← Expr.eval ops e))
    | .Factorial => do
      let val ← Expr.eval ops e
      if fract val = 0 then
        .ok ((u64RangeProd (f64ToU64 val) : ℕ) : ℚ)
      else
        .error .factorialFrac
  | .Number n => .ok n
  | .Eof => .error .evalEof

/-- `Expr::get_width` (src/parse.rs:94-101): number of display cells the
grid rendering of the tree needs. -/
def Expr.get_width : Expr → Nat
  | .BinaryOp _ e1 e2 => e1.get_width + e2.get_width + 3
  | .UnaryOp _ e => e.get_width
  | .Number _ => 1
  | .Eof => 0

/-- `Expr::get_max_len` (src/parse.rs:104-111).  The length
`n.to_string().len()` of Rust's shortest-round-trip `f64` formatting is
not reproduced on the `ℚ` model; it is abstracted as the parameter
`len_of`, and every fact proved about `get_max_len` holds for an
arbitrary `len_of`. -/
def Expr.get_max_len (len_of : ℚ → Nat) : Expr → Nat
  | .BinaryOp _ e1 e2 => max (e1.get_max_len len_of) (e2.get_max_len len_of)
  | .UnaryOp _ e => e.get_max_len len_of
  | .Number n => max (len_of n) 3
  | .Eof => 0

/-- The numeric values of the `Number` leaves of an expression, in
left-to-right order (used to state what `get_max_len` actually
computes). -/
def numberLeaves : Expr → List ℚ
  | .BinaryOp _ e1 e2 => numberLeaves e1 ++ numberLeaves e2
  | .UnaryOp _ e => numberLeaves e
  | .Number n => [n]
  | .Eof => []

/-- A throwaway label-length function standing for `n.to_string().len()`
in closed concrete statements; the facts proved with it do not depend on
it. -/
def len0 : ℚ → Nat := fun _ => 1

/-- Lexer failure (src/lex.rs): a byte sequence matching no token
pattern makes the logos lexer yield an error at that position
(`unrecognized` carries the offending character); `outOfFuel` is the
fuel sentinel of our explicit-fuel loop, never reached through the
public wrapper `tokenize`. -/
inductive LexError where
  | unrecognized (c : Char)
  | outOfFuel
deriving DecidableEq, Repr

/-- The skip pattern `[ \t\n\f]+` of the lexer (src/lex.rs:4). -/
def isWsChar (c : Char) : Bool :=
  c = ' ' || c = '\t' || c = '\n' || c = '\x0c'

/-- `\d` of the number regex. -/
def isDigitChar (c : Char) : Bool := '0' ≤ c && c ≤ '9'

/-- Numeric value of a decimal digit character. -/
def digitVal (c : Char) : Nat := c.toNat - '0'.toNat

/-- Value of a string of decimal digits. -/
def digitsToNat (ds : List Char) : Nat :=
  ds.foldl (fun a c => 10 * a + digitVal c) 0

/-- Maximal match of the optional tail `(?:\.\d+)?(?:[eE][+-]?\d+)?` of
the number regex (src/lex.rs:47) after an integer part of value `ival`,
together with the value of the whole literal: `lex.slice().parse::<f64>()`
is modelled as the exact `ℚ` value of the literal (every literal a claim
mentions is exactly representable as an `f64`). -/
def numTail (ival : Nat) (cs : List Char) : ℚ × List Char :=
  let (base, cs1) : ℚ × List Char :=
    match cs with
    | '.' :: cs0 =>
      let f := cs0.takeWhile isDigitChar
      if f = [] then ((ival : ℚ), cs)
      else (((ival * 10 ^ f.length + digitsToNat f : ℕ) : ℚ) / ((10 ^ f.length : ℕ) : ℚ),
            cs0.dropWhile isDigitChar)
    | _ => ((ival : ℚ), cs)
  match cs1 with
  | c :: cs2 =>
    if c = 'e' || c = 'E' then
      match cs2 with
      | '+' :: cs3 =>
        let ds := cs3.takeWhile isDigitChar
        if ds = [] then (base, cs1)
        else (base * ((10 ^ digitsToNat ds : ℕ) : ℚ), cs3.dropWhile isDigitChar)
      | '-' :: cs3 =>
        let ds := cs3.takeWhile isDigitChar
        if ds = [] then (base, cs1)
        else (base / ((10 ^ digitsToNat ds : ℕ) : ℚ), cs3.dropWhile isDigitChar)
      | cs3 =>
        let ds := cs3.takeWhile isDigitChar
        if ds = [] then (base, cs1)
        else (base * ((10 ^ digitsToNat ds : ℕ) : ℚ), cs3.dropWhile isDigitChar)
    else (base, cs1)
  | [] => (base, cs1)

/-- Maximal match of the number regex
`(?:0|[1-9]\d*)(?:\.\d+)?(?:[eE][+-]?\d+)?` (src/lex.rs:47) at the head
of the input: the integer part is a lone `0` or a nonzero-led digit
string, then `numTail` takes the optional fraction and exponent. -/
def matchNumber : List Char → Option (ℚ × List Char)
  | '0' :: cs => some (numTail 0 cs)
  | c :: cs =>
    if isDigitChar c then
      some (numTail (digitsToNat (c :: cs.takeWhile isDigitChar)) (cs.dropWhile isDigitChar))
    else
      none
  | [] => none

/-- One-token-at-a-time loop of the logos lexer for `Token`
(src/lex.rs): skip whitespace, then longest-match one of the fixed
tokens, the keywords `sin cos tan exp ln`, or a number literal; no
pattern here shares a first character with another, so first-character
dispatch is maximal munch.  Fuel only makes the recursion structural:
every step consumes at least one character. -/
def lexFuel : Nat → List Char → Except LexError (List Token)
  | 0, _ => .error .outOfFuel
  | _ + 1, [] => .ok []
  | fuel + 1, c :: cs =>
    if isWsChar c then lexFuel fuel cs
    else if c = '+' then do .ok (.Plus :: (← lexFuel fuel cs))
    else if c = '-' then do .ok (.Minus :: (← lexFuel fuel cs))
    else if c = '*' then do .ok (.Multiply :: (← lexFuel fuel cs))
    else if c = '/' then do .ok (.Divide :: (← lexFuel fuel cs))
    else if c = '^' then do .ok (.Power :: (← lexFuel fuel cs))
    else if c = '!' then do .ok (.Factorial :: (← lexFuel fuel cs))
    else if c = '(' then do .ok (.LParens :: (← lexFuel fuel cs))
    else if c = ')' then do .ok (.RParens :: (← lexFuel fuel cs))
    else
      match c :: cs with
      | 's' :: 'i' :: 'n' :: rest => do .ok (.Sin :: (← lexFuel fuel rest))
      | 'c' :: 'o' :: 's' :: rest => do .ok (.Cos :: (← lexFuel fuel rest))
      | 't' :: 'a' :: 'n' :: rest => do .ok (.Tan :: (← lexFuel fuel rest))
      | 'e' :: 'x' :: 'p' :: rest => do .ok (.Exp :: (← lexFuel fuel rest))
      | 'l' :: 'n' :: rest => do .ok (.Log :: (← lexFuel fuel rest))
      | cs0 =>
        match matchNumber cs0 with
        | some (q, rest) => do .ok (.Number q :: (← lexFuel fuel rest))
        | none => .error (.unrecognized c)

/-- The tokenizer `Token::lexer(s)` run to completion: `length + 1` fuel
suffices since every `lexFuel` step consumes at least one character. -/
def tokenize (cs : List Char) : Except LexError (List Token) :=
  lexFuel (cs.length + 1) cs

example :
    expr_prec [.Number 1, .Plus, .Number 2, .Divide, .Number 3, .Minus,
               .Number 4, .Divide, .Number 5] 0 =
      .ok (.BinaryOp .Minus
             (.BinaryOp .Plus (.Number 1)
               (.BinaryOp .Divide (.Number 2) (.Number 3)))
             (.BinaryOp .Divide (.Number 4) (.Number 5)), []) := rfl

example :
    expr_prec [.Sin, .LParens, .Number 3, .Minus, .Minus, .Number 1, .RParens] 0 =
      .ok (.UnaryOp .Sin
             (.BinaryOp .Minus (.Number 3)
               (.UnaryOp .Negative (.Number 1))), []) := rfl

example : (Expr.UnaryOp .Sin (.BinaryOp .Plus (.Number 2) (.Number 7))).get_width = 5 := rfl

example : tokenize "1+2".toList = .ok [.Number 1, .Plus, .Number 2] := by decide

example : tokenize "12.5e-1".toList = .ok [.Number (5/4)] := by
  simp [tokenize, lexFuel, matchNumber, numTail, digitsToNat, digitVal, isWsChar, isDigitChar]
  norm_num
  rfl

/-- Counterexample to C1 as stated: `2^3^4` does NOT parse
right-associated.  `infix_prec` gives `^` the binding powers `(5, 6)`,
the same left-associating pattern as `+` and `*`: the right-hand side of
a `^` is parsed with minimum binding power `6`, where the next `^`
(left binding power `5 < 6`) makes the loop stop, so the outer loop
re-captures it and `2^3^4` parses left-associated as `(2^3)^4`. -/
theorem C1_cex_power_not_right_assoc :
    expr_prec [.Number 2, .Power, .Number 3, .Power, .Number 4] 0 ≠
      .ok (.BinaryOp .Power (.Number 2) (.BinaryOp .Power (.Number 3) (.Number 4)), []) ∧
    expr_prec [.Number 2, .Power, .Number 3, .Power, .Number 4] 0 =
      .ok (.BinaryOp .Power (.BinaryOp .Power (.Number 2) (.Number 3)) (.Number 4), []) :=
  ⟨by decide, rfl⟩

/-- C1 amended: for all numeric literals `a b c`, `a+b*c` groups the
product to the right, `a-b-c` associates to the left, in `a!^b` the
factorial binds before the power — and `a^b^c` parses LEFT-associated
as `BinaryOp(Power, BinaryOp(Power, a, b), c)`, since the `(5, 6)`
binding powers of `^` left-associate it exactly like `+` and `*`. -/
theorem C1_precedence_and_associativity (a b c : ℚ) :
    expr_prec [.Number a, .Plus, .Number b, .Multiply, .Number c] 0 =
      .ok (.BinaryOp .Plus (.Number a) (.BinaryOp .Multiply (.Number b) (.Number c)), []) ∧
    expr_prec [.Number a, .Power, .Number b, .Power, .Number c] 0 =
      .ok (.BinaryOp .Power (.BinaryOp .Power (.Number a) (.Number b)) (.Number c), []) ∧
    expr_prec [.Number a, .Minus, .Number b, .Minus, .Number c] 0 =
      .ok (.BinaryOp .Minus (.BinaryOp .Minus (.Number a) (.Number b)) (.Number c), []) ∧
    expr_prec [.Number a, .Factorial, .Power, .Number b] 0 =
      .ok (.BinaryOp .Power (.UnaryOp .Factorial (.Number a)) (.Number b), []) :=
  ⟨rfl, rfl, rfl, rfl⟩

/-- C2: parsing the empty token stream yields the end marker, and
evaluating the end marker reaches the abort the source spells
`panic!("Should not eval Eof expr!")` — modelled as the `.evalEof`
panic tag — instead of returning an `EvalError::EmptyExpression` value
(no `EvalError` type exists in the code), which is the divergence that
makes this claim a code bug. -/
theorem C2_empty_input_end_marker (ops : TransOps) :
    expr_prec [] 0 = .ok (.Eof, []) ∧
    Expr.eval ops .Eof = .error .evalEof :=
  ⟨rfl, rfl⟩

/-- C4: a factorial whose operand evaluates to `2.5` (non-zero
fractional part) reaches the abort the source spells
`panic!("Cannot evaluate factorial on decimal.")` — modelled as the
`.factorialFrac` panic tag — instead of returning an
`EvalError::FactorialOfNonInteger` value (no `EvalError` type exists in
the code), which is the divergence that makes this claim a code bug. -/
theorem C4_factorial_of_fraction_panics (ops : TransOps) :
    fract (5 / 2 : ℚ) ≠ 0 ∧
    Expr.eval ops (.UnaryOp .Factorial (.Number (5 / 2))) = .error .factorialFrac := by
  have h : fract (5 / 2 : ℚ) ≠ 0 := by norm_num [fract, ftrunc]
  exact ⟨h, by simp [Expr.eval, Bind.bind, Except.bind, h]⟩

/-- C6: tokenizing `"5^ln(3/4* cos(9- -1))"` produces exactly the
specified sixteen tokens, skipping the whitespace and lexing `ln` and
`cos` as single keyword tokens. -/
theorem C6_scenario_e_token_sequence :
    tokenize "5^ln(3/4* cos(9- -1))".toList =
      .ok [.Number 5, .Power, .Log, .LParens, .Number 3, .Divide, .Number 4,
           .Multiply, .Cos, .LParens, .Number 9, .Minus, .Minus, .Number 1,
           .RParens, .RParens] := by
  decide

/-- C7: the layout width metric satisfies the four stated equations:
binary nodes add 3 to the children's combined width, unary nodes pass
their child through, numbers cost 1, the end marker costs 0. -/
theorem C7_width_equations (op : BinOp) (u : UnOp) (l r c : Expr) (n : ℚ) :
    (Expr.BinaryOp op l r).get_width = l.get_width + r.get_width + 3 ∧
    (Expr.UnaryOp u c).get_width = c.get_width ∧
    (Expr.Number n).get_width = 1 ∧
    (Expr.Eof).get_width = 0 :=
  ⟨rfl, rfl, rfl, rfl⟩

/-- C9: a factorial whose operand evaluates to a negative value with
zero fractional part does not fail: the saturating `as u64` cast sends
the negative value to `0`, the product over the empty range is `1`, and
the result is `1.0`. -/
theorem C9_negative_integral_factorial (ops : TransOps) (e : Expr) (v : ℚ)
    (hv : Expr.eval ops e = .ok v) (hneg : v < 0) (hfrac : fract v = 0) :
    Expr.eval ops (.UnaryOp .Factorial e) = .ok 1 := by
  have hcast : f64ToU64 v = 0 := by simp [f64ToU64, hneg]
  simp [Expr.eval, Bind.bind, Except.bind, hv, hfrac, hcast, u64RangeProd]

/-- Witness for C9 at the parse tree of the input `(-3)!`: the operand
`-(3)` evaluates to `-3 < 0` with zero fractional part and the factorial
evaluates to `1`. -/
theorem C9_negative_integral_factorial_witness :
    Expr.eval noTrans (.UnaryOp .Negative (.Number 3)) = .ok (-3) ∧
    (-3 : ℚ) < 0 ∧ fract (-3 : ℚ) = 0 ∧
    Expr.eval noTrans (.UnaryOp .Factorial (.UnaryOp .Negative (.Number 3))) = .ok 1 := by
  have h1 : Expr.eval noTrans (.UnaryOp .Negative (.Number 3)) = .ok (-3) := rfl
  have h2 : (-3 : ℚ) < 0 := by norm_num
  have h3 : fract (-3 : ℚ) = 0 := by norm_num [fract, ftrunc]
  exact ⟨h1, h2, h3, C9_negative_integral_factorial noTrans _ _ h1 h2 h3⟩

/-- The wrapping u64 accumulation of the factorial branch computes the
true factorial reduced modulo `2^64`. -/
theorem u64RangeProd_factorial (n : ℕ) : u64RangeProd n = Nat.factorial n % 2 ^ 64 := by
  have key : ∀ m a : ℕ,
      (List.range' 1 m).foldl (fun acc k => acc * k % 2 ^ 64) (a % 2 ^ 64) =
        a * Nat.factorial m % 2 ^ 64 := by
    intro m
    induction m with
    | zero => intro a; simp [Nat.factorial]
    | succ m ih =>
      intro a
      rw [List.range'_concat, List.foldl_append, ih a]
      simp only [List.foldl_cons, List.foldl_nil]
      rw [Nat.mod_mul_mod, Nat.factorial_succ]
      congr 1
      ring
  have h := key n 1
  rw [Nat.one_mod_eq_one.mpr (by norm_num), one_mul] at h
  exact h

/-- Counterexample to C3 as stated: at operand value `21` the u64
accumulation of `1×2×…×21` wraps modulo `2^64`, so evaluation returns
`14197454024290336768.0` and NOT the true product `21! =
51090942171709440000` converted to double. -/
theorem C3_cex_factorial_21_wraps :
    Expr.eval noTrans (.UnaryOp .Factorial (.Number 21)) =
      .ok ((14197454024290336768 : ℕ) : ℚ) ∧
    Expr.eval noTrans (.UnaryOp .Factorial (.Number 21)) ≠
      .ok ((Nat.factorial 21 : ℕ) : ℚ) := by
  have hfrac : fract (21 : ℚ) = 0 := by norm_num [fract, ftrunc]
  have hcast : f64ToU64 (21 : ℚ) = 21 := by norm_num [f64ToU64, ftrunc]; rfl
  have hprod : u64RangeProd 21 = 14197454024290336768 := by decide
  have heval : Expr.eval noTrans (.UnaryOp .Factorial (.Number 21)) =
      .ok ((14197454024290336768 : ℕ) : ℚ) := by
    simp [Expr.eval, Bind.bind, Except.bind, hfrac, hcast, hprod]
  refine ⟨heval, ?_⟩
  rw [heval]
  intro h
  have := Except.ok.inj h
  have hne : ((14197454024290336768 : ℕ) : ℚ) ≠ ((Nat.factorial 21 : ℕ) : ℚ) := by
    rw [Ne, Nat.cast_inj]
    decide
  exact hne this

/-- C3 amended: a factorial whose operand evaluates to a value with zero
fractional part truncates it (with the saturating `as u64` cast) to an
unsigned integer `n` and returns the product `1×2×…×n` computed with
wrapping 64-bit unsigned multiplication — that is, `n! mod 2^64`, which
equals the true product only for `n ≤ 20` — converted back to double
(`n = 0` still gives `1`). -/
theorem C3_integral_factorial (ops : TransOps) (e : Expr) (v : ℚ)
    (hv : Expr.eval ops e = .ok v) (hfrac : fract v = 0) :
    Expr.eval ops (.UnaryOp .Factorial e) =
      .ok ((Nat.factorial (f64ToU64 v) % 2 ^ 64 : ℕ) : ℚ) := by
  simp [Expr.eval, Bind.bind, Except.bind, hv, hfrac, u64RangeProd_factorial]

/-- Witness for C3 amended at operand `5`: the factorial evaluates to
`5! mod 2^64 = 120`. -/
theorem C3_integral_factorial_witness :
    Expr.eval noTrans (.Number 5) = .ok 5 ∧ fract (5 : ℚ) = 0 ∧
    Expr.eval noTrans (.UnaryOp .Factorial (.Number 5)) =
      .ok ((Nat.factorial (f64ToU64 5) % 2 ^ 64 : ℕ) : ℚ) ∧
    (Nat.factorial (f64ToU64 (5 : ℚ)) % 2 ^ 64 : ℕ) = 120 := by
  have h1 : Expr.eval noTrans (.Number 5) = .ok 5 := rfl
  have h2 : fract (5 : ℚ) = 0 := by norm_num [fract, ftrunc]
  have h3 : f64ToU64 (5 : ℚ) = 5 := by norm_num [f64ToU64, ftrunc]; rfl
  refine ⟨h1, h2, C3_integral_factorial noTrans _ _ h1 h2, by rw [h3]; decide⟩

theorem foldr_max_append (a b : List ℕ) :
    (a ++ b).foldr max 0 = max (a.foldr max 0) (b.foldr max 0) := by
  induction a with
  | nil => simp
  | cons x a ih => simp [ih, Nat.max_assoc]

/-- Counterexample to C8 as stated: the expression `UnaryOp(Sin, Eof)`
(the parse result of the input `sin`) contains the operator label `sin`,
so the claim demands `max_label_length ≥ 3`, but `get_max_len` ignores
operator labels entirely and returns `0` for any subtree without a
`Number` leaf. -/
theorem C8_cex_operator_only_subtree :
    (Expr.UnaryOp .Sin .Eof).get_max_len len0 = 0 ∧
    ¬ 3 ≤ (Expr.UnaryOp .Sin .Eof).get_max_len len0 :=
  ⟨rfl, by decide⟩

/-- C8 amended: `max_label_length(e)` equals the maximum over the
`Number` leaves of the subtree of `max(length of the formatted number,
3)`, with `0` when the subtree has no `Number` leaf; operator labels
(all of length ≤ 3) never contribute, and the result is at least 3 for
any expression containing at least one number.  Stated for an arbitrary
label-length function `len_of` standing for `n.to_string().len()`. -/
theorem C8_max_label_length (len_of : ℚ → Nat) (e : Expr) :
    e.get_max_len len_of =
      ((numberLeaves e).map (fun n => max (len_of n) 3)).foldr max 0 ∧
    (numberLeaves e ≠ [] → 3 ≤ e.get_max_len len_of) := by
  induction e with
  | BinaryOp op e1 e2 ih1 ih2 =>
    obtain ⟨h1, h1'⟩ := ih1
    obtain ⟨h2, h2'⟩ := ih2
    constructor
    · simp only [Expr.get_max_len, numberLeaves, List.map_append, foldr_max_append, h1, h2]
    · intro hne
      have hor : numberLeaves e1 ≠ [] ∨ numberLeaves e2 ≠ [] := by
        by_contra hc
        push_neg at hc
        exact hne (by simp [numberLeaves, hc.1, hc.2])
      rcases hor with h | h
      · exact le_trans (h1' h) (by simp [Expr.get_max_len])
      · exact le_trans (h2' h) (by simp [Expr.get_max_len])
  | UnaryOp op e ih =>
    exact ⟨by simp [Expr.get_max_len, numberLeaves, ih.1],
           fun h => by simpa [Expr.get_max_len] using ih.2 (by simpa [numberLeaves] using h)⟩
  | Number n => exact ⟨by simp [Expr.get_max_len, numberLeaves], fun _ => by
      simp [Expr.get_max_len]⟩
  | Eof => exact ⟨rfl, fun h => absurd rfl h⟩

/-- Witness for C8 amended at the expression `Number 5`: it has a number
leaf, the computed value agrees with the leaf-wise maximum, and is at
least 3. -/
theorem C8_max_label_length_witness :
    (Expr.Number 5).get_max_len len0 =
      ((numberLeaves (Expr.Number 5)).map (fun n => max (len0 n) 3)).foldr max 0 ∧
    numberLeaves (Expr.Number 5) ≠ [] ∧
    3 ≤ (Expr.Number 5).get_max_len len0 := by
  have hne : numberLeaves (Expr.Number 5) ≠ [] := by simp [numberLeaves]
  exact ⟨(C8_max_label_length len0 (Expr.Number 5)).1, hne,
         (C8_max_label_length len0 (Expr.Number 5)).2 hne⟩

/-- C10: the parser succeeds on the truncated non-empty inputs `1+` and
`sin`, returning expressions with the end marker embedded as a proper
subterm, and evaluating those results fails on the embedded end
marker. -/
theorem C10_embedded_end_marker (ops : TransOps) :
    expr_prec [.Number 1, .Plus] 0 = .ok (.BinaryOp .Plus (.Number 1) .Eof, []) ∧
    expr_prec [.Sin] 0 = .ok (.UnaryOp .Sin .Eof, []) ∧
    Expr.eval ops (.BinaryOp .Plus (.Number 1) .Eof) = .error .evalEof ∧
    Expr.eval ops (.UnaryOp .Sin .Eof) = .error .evalEof :=
  ⟨rfl, rfl, rfl, rfl⟩

theorem continues_false {t : Token} (h : continuesExpr t = false) :
    postTokPrec t = none ∧ binTokPrec t = none := by
  cases t <;> simp_all [continuesExpr, postTokPrec, binTokPrec]

theorem ExtOk_of_unary {u : UnOp} {rhs : Expr} {ts suf : List Token}
    (h : ExtOk (.UnaryOp u rhs) ts suf) : ExtOk rhs ts suf := by
  rcases h with h | ⟨hno, hst⟩
  · exact Or.inl h
  · exact Or.inr ⟨by simpa [Expr.noEof] using hno, hst⟩

theorem ExtOk_of_binary {b : BinOp} {lhs rhs : Expr} {ts suf : List Token}
    (h : ExtOk (.BinaryOp b lhs rhs) ts suf) : ExtOk rhs ts suf := by
  rcases h with h | ⟨hno, hst⟩
  · exact Or.inl h
  · refine Or.inr ⟨?_, hst⟩
    simp [Expr.noEof] at hno
    exact hno.2

/-- If a run of the parser loop on input `ts` produced `(e, rem)` and
`(e, rem)` admits the suffix `suf`, then the loop input `ts` admits it
as well (going through the accumulated left-hand side `lhs`). -/
theorem loopExtOk {fuel : Nat} {lhs : Expr} {ts : List Token} {p : Nat} {e : Expr}
    {rem suf : List Token} (h : exprLoopFuel fuel lhs ts p = .ok (e, rem))
    (hext : ExtOk e rem suf) : ExtOk lhs ts suf := by
  cases fuel with
  | zero => simp [exprLoopFuel] at h
  | succ fuel =>
    cases ts with
    | cons t rest => exact Or.inl (by simp)
    | nil =>
      simp only [exprLoopFuel, Except.ok.injEq, Prod.mk.injEq] at h
      obtain ⟨rfl, rfl⟩ := h
      rcases hext with hne | ⟨hno, hst⟩
      · exact absurd rfl hne
      · exact Or.inr ⟨hno, hst⟩

/-- Core extension property of the parser: appending `suf` to the input
of a successful parse changes nothing when `suf` cannot be reached
(`rem ≠ []`: the parse stopped by peeking a token, never observing the
end of input) or cannot re-activate the stopped parse (`rem = []`, the
result contains no end marker, and `suf` starts with a non-continuing
token).  Stated for both mutually recursive parser functions at every
fuel. -/
theorem extendAux : ∀ fuel : Nat,
    (∀ ts p e rem suf, exprPrecFuel fuel ts p = .ok (e, rem) → ExtOk e rem suf →
      exprPrecFuel fuel (ts ++ suf) p = .ok (e, rem ++ suf)) ∧
    (∀ lhs ts p e rem suf, exprLoopFuel fuel lhs ts p = .ok (e, rem) → ExtOk e rem suf →
      exprLoopFuel fuel lhs (ts ++ suf) p = .ok (e, rem ++ suf)) := by
  intro fuel
  induction fuel with
  | zero =>
    refine ⟨fun ts p e rem suf h _ => ?_, fun lhs ts p e rem suf h _ => ?_⟩
    · simp [exprPrecFuel] at h
    · simp [exprLoopFuel] at h
  | succ fuel ih =>
    obtain ⟨ihP, ihL⟩ := ih
    constructor
    · intro ts p e rem suf h hext
      cases ts with
      | nil =>
        simp only [exprPrecFuel, Except.ok.injEq, Prod.mk.injEq] at h
        obtain ⟨rfl, rfl⟩ := h
        rcases hext with hne | ⟨hno, _⟩
        · exact absurd rfl hne
        · simp [Expr.noEof] at hno
      | cons t rest =>
        cases t
        case Number n =>
          simp only [List.cons_append, exprPrecFuel] at h ⊢
          exact ihL _ _ _ _ _ _ h hext
        case LParens =>
          simp only [List.cons_append, exprPrecFuel, List.append_eq] at h ⊢
          rcases hinner : exprPrecFuel fuel rest 0 with err | ⟨lhs1, rest1⟩
          · simp only [hinner] at h
            exact Except.noConfusion h
          · simp only [hinner] at h
            split at h
            · next rest2 =>
              have hinner2 := ihP rest 0 lhs1 (Token.RParens :: rest2) suf hinner
                (Or.inl (by simp))
              simp only [List.cons_append] at hinner2
              simp only [hinner2]
              exact ihL _ _ _ _ _ _ h hext
            · next hno1 => exact absurd h (by simp)
        all_goals (first
          | (simp only [List.cons_append, exprPrecFuel, preTokPrec] at h
             exact Except.noConfusion h)
          | (simp only [List.cons_append, exprPrecFuel, preTokPrec, List.append_eq] at h ⊢
             rcases hinner : exprPrecFuel fuel rest 8 with err | ⟨rhs, rest1⟩
             · simp only [hinner] at h
               exact Except.noConfusion h
             · simp only [hinner, unOpOfToken] at h ⊢
               have hext1 : ExtOk rhs rest1 suf := ExtOk_of_unary (loopExtOk h hext)
               have hinner2 := ihP rest 8 rhs rest1 suf hinner hext1
               simp only [hinner2]
               exact ihL _ _ _ _ _ _ h hext))
    · intro lhs ts p e rem suf h hext
      cases ts with
      | nil =>
        simp only [exprLoopFuel, Except.ok.injEq, Prod.mk.injEq] at h
        obtain ⟨rfl, rfl⟩ := h
        rcases hext with hne | ⟨_, hst⟩
        · exact absurd rfl hne
        · cases suf with
          | nil => simp [exprLoopFuel]
          | cons t suf2 =>
            obtain ⟨hpost, hbin⟩ := continues_false hst
            simp [exprLoopFuel, hpost, hbin]
      | cons op rest =>
        simp only [List.cons_append, exprLoopFuel, List.append_eq] at h ⊢
        rcases hpost : postTokPrec op with _ | lbp
        · rcases hbin : binTokPrec op with _ | ⟨lbp, rbp⟩
          · simp only [hpost, hbin, Except.ok.injEq, Prod.mk.injEq] at h ⊢
            obtain ⟨rfl, rfl⟩ := h
            simp
          · simp only [hpost, hbin] at h ⊢
            by_cases hlt : lbp < p
            · rw [if_pos hlt] at h ⊢
              simp only [Except.ok.injEq, Prod.mk.injEq] at h ⊢
              obtain ⟨rfl, rfl⟩ := h
              simp
            · rw [if_neg hlt] at h ⊢
              rcases hinner : exprPrecFuel fuel rest rbp with err | ⟨rhs, rest1⟩
              · simp only [hinner] at h
                exact Except.noConfusion h
              · simp only [hinner] at h
                rcases hb : binOpOfToken op with _ | b
                · simp only [hb] at h
                  exact Except.noConfusion h
                · simp only [hb] at h
                  have hext1 : ExtOk rhs rest1 suf := ExtOk_of_binary (loopExtOk h hext)
                  have hinner2 := ihP rest rbp rhs rest1 suf hinner hext1
                  simp only [List.append_eq, hinner2, hb]
                  exact ihL _ _ _ _ _ _ h hext
        · simp only [hpost] at h ⊢
          by_cases hlt : lbp < p
          · rw [if_pos hlt] at h ⊢
            simp only [Except.ok.injEq, Prod.mk.injEq] at h ⊢
            obtain ⟨rfl, rfl⟩ := h
            simp
          · rw [if_neg hlt] at h ⊢
            rcases hu : unOpOfToken op with _ | u
            · simp only [hu] at h
              exact Except.noConfusion h
            · simp only [hu] at h ⊢
              exact ihL _ _ _ _ _ _ h hext

/-- Fuel monotonicity: a successful run of either parser function stays
identical under any larger fuel — the fuel is an artefact of the
embedding, not of the algorithm. -/
theorem monoAux : ∀ fuel : Nat,
    (∀ fuel2 ts p r, exprPrecFuel fuel ts p = .ok r → fuel ≤ fuel2 →
      exprPrecFuel fuel2 ts p = .ok r) ∧
    (∀ fuel2 lhs ts p r, exprLoopFuel fuel lhs ts p = .ok r → fuel ≤ fuel2 →
      exprLoopFuel fuel2 lhs ts p = .ok r) := by
  intro fuel
  induction fuel with
  | zero =>
    refine ⟨fun fuel2 ts p r h _ => ?_, fun fuel2 lhs ts p r h _ => ?_⟩
    · simp [exprPrecFuel] at h
    · simp [exprLoopFuel] at h
  | succ fuel ih =>
    obtain ⟨ihP, ihL⟩ := ih
    constructor
    · intro fuel2 ts p r h hle
      cases fuel2 with
      | zero => omega
      | succ fuel2 =>
        have hle2 : fuel ≤ fuel2 := by omega
        cases ts with
        | nil => simpa [exprPrecFuel] using h
        | cons t rest =>
          cases t
          case Number n =>
            simp only [exprPrecFuel] at h ⊢
            exact ihL fuel2 _ _ _ _ h hle2
          case LParens =>
            simp only [exprPrecFuel] at h ⊢
            rcases hinner : exprPrecFuel fuel rest 0 with err | ⟨lhs1, rest1⟩
            · simp only [hinner] at h
              exact Except.noConfusion h
            · simp only [hinner] at h
              simp only [ihP fuel2 rest 0 (lhs1, rest1) hinner hle2]
              split at h
              · next rest2 => exact ihL fuel2 _ _ _ _ h hle2
              · next hno1 => exact absurd h (by simp)
          all_goals (first
            | (simp only [exprPrecFuel, preTokPrec] at h
               exact Except.noConfusion h)
            | (simp only [exprPrecFuel, preTokPrec] at h ⊢
               rcases hinner : exprPrecFuel fuel rest 8 with err | ⟨rhs, rest1⟩
               · simp only [hinner] at h
                 exact Except.noConfusion h
               · simp only [hinner, unOpOfToken] at h ⊢
                 simp only [ihP fuel2 rest 8 (rhs, rest1) hinner hle2]
                 exact ihL fuel2 _ _ _ _ h hle2))
    · intro fuel2 lhs ts p r h hle
      cases fuel2 with
      | zero => omega
      | succ fuel2 =>
        have hle2 : fuel ≤ fuel2 := by omega
        cases ts with
        | nil => simpa [exprLoopFuel] using h
        | cons op rest =>
          simp only [exprLoopFuel] at h ⊢
          rcases hpost : postTokPrec op with _ | lbp
          · rcases hbin : binTokPrec op with _ | ⟨lbp, rbp⟩
            · simp only [hpost, hbin] at h ⊢
              exact h
            · simp only [hpost, hbin] at h ⊢
              by_cases hlt : lbp < p
              · rw [if_pos hlt] at h ⊢
                exact h
              · rw [if_neg hlt] at h ⊢
                rcases hinner : exprPrecFuel fuel rest rbp with err | ⟨rhs, rest1⟩
                · simp only [hinner] at h
                  exact Except.noConfusion h
                · simp only [hinner] at h
                  simp only [ihP fuel2 rest rbp (rhs, rest1) hinner hle2]
                  rcases hb : binOpOfToken op with _ | b
                  · simp only [hb] at h
                    exact Except.noConfusion h
                  · simp only [hb] at h ⊢
                    exact ihL fuel2 _ _ _ _ h hle2
          · simp only [hpost] at h ⊢
            by_cases hlt : lbp < p
            · rw [if_pos hlt] at h ⊢
              exact h
            · rw [if_neg hlt] at h ⊢
              rcases hu : unOpOfToken op with _ | u
              · simp only [hu] at h
                exact Except.noConfusion h
              · simp only [hu] at h ⊢
                exact ihL fuel2 _ _ _ _ h hle2

/-- C5: for every token stream made of a complete expression (`ts`
parses to `e` consuming everything, with no embedded end marker)
followed by additional unconsumed tokens (`t :: suf`, where `t` is not
an infix or postfix operator — otherwise the parser would consume it
rather than leave it trailing, e.g. `1 2` or `1)`), the top-level core
parse call succeeds and returns the expression of the leading complete
parse, leaving the trailing tokens unconsumed and unreported. -/
theorem C5_trailing_tokens_not_rejected (ts suf : List Token) (e : Expr) (t : Token)
    (hcomplete : expr_prec ts 0 = .ok (e, []))
    (hreal : Expr.noEof e = true)
    (hstop : continuesExpr t = false) :
    expr_prec (ts ++ t :: suf) 0 = .ok (e, t :: suf) := by
  have h1 := (extendAux (ts.length + 1)).1 ts 0 e [] (t :: suf) hcomplete
    (Or.inr ⟨hreal, hstop⟩)
  have h2 := (monoAux (ts.length + 1)).1 ((ts ++ t :: suf).length + 1)
    (ts ++ t :: suf) 0 (e, t :: suf) (by simpa using h1) (by simp)
  simpa [expr_prec] using h2

/-- Witness for C5 at the token stream of `1 2`: the leading `1` is a
complete expression, the trailing `2` is not an operator token, and the
core parse call returns `Number 1` with the `2` left unconsumed. -/
theorem C5_trailing_tokens_not_rejected_witness :
    expr_prec [Token.Number 1] 0 = .ok (.Number 1, []) ∧
    Expr.noEof (.Number 1) = true ∧
    continuesExpr (.Number 2) = false ∧
    expr_prec [Token.Number 1, Token.Number 2] 0 = .ok (.Number 1, [Token.Number 2]) := by
  refine ⟨rfl, rfl, rfl, ?_⟩
  have h := C5_trailing_tokens_not_rejected [Token.Number 1] [] (.Number 1) (.Number 2)
    rfl rfl rfl
  simpa using h

example : expr_prec [Token.Number 1, Token.RParens] 0 =
    .ok (.Number 1, [Token.RParens]) := rfl

end AstCalc
